import Mathlib

/-!
Verification of the Hummingbird batched-inference execution layer and the
label-encoder tensor encodings, shallowly embedded from:
  - src/hummingbird/ml/_container.py
  - src/hummingbird/ml/operator_converters/_label_encoder_implementations.py
  - src/hummingbird/ml/operator_converters/sklearn/kneighbors.py
-/

namespace Hummingbird

instance exceptDecEq {ε γ : Type} [DecidableEq ε] [DecidableEq γ] :
    DecidableEq (Except ε γ) := fun a b =>
  match a, b with
  | Except.ok x, Except.ok y =>
    if h : x = y then isTrue (by rw [h]) else isFalse (fun hc => h (Except.ok.inj hc))
  | Except.error x, Except.error y =>
    if h : x = y then isTrue (by rw [h]) else isFalse (fun hc => h (Except.error.inj hc))
  | Except.ok _, Except.error _ => isFalse (fun hc => Except.noConfusion hc)
  | Except.error _, Except.ok _ => isFalse (fun hc => Except.noConfusion hc)

/-- A NumPy ndarray modelled as a shape together with its row-major flat data. -/
structure NDArray (α : Type) where
  shape : List Nat
  data : List α
deriving DecidableEq, Repr

/-- numpy `a.ravel()`: the row-major flat data of an array. -/
def NDArray.ravel {α : Type} (a : NDArray α) : List α := a.data

/-- numpy `np.array(l)` applied to a flat Python list: a 1-D array. -/
def ndOfList {α : Type} (l : List α) : NDArray α := ⟨[l.length], l⟩

/-- numpy `a.reshape(n, -1)`. -/
def NDArray.reshape2 {α : Type} (a : NDArray α) (n : Nat) : NDArray α :=
  ⟨[n, a.data.length / n], a.data⟩

/-- A 2-D input array, as a list of rows. -/
abbrev Matrix (α : Type) := List (List α)

/-- Python slice `m[s:e, :]` over the row dimension. -/
def sliceRows {α : Type} (m : Matrix α) (s e : Nat) : Matrix α :=
  (m.drop s).take (e - s)

/-- Slice every input array over the row dimension, as the loop body of
`SklearnContainer._run_batch_inference` does for tuple inputs. -/
def sliceAll {α : Type} (inputs : List (Matrix α)) (s e : Nat) : List (Matrix α) :=
  inputs.map (fun m => sliceRows m s e)

/-- Model of `total_size = inputs[0].shape[0]` in `SklearnContainer._run_batch_inference`. -/
def rowCount {α : Type} (inputs : List (Matrix α)) : Nat :=
  (inputs.headD []).length

/-- The iteration count computed by `SklearnContainer._run_batch_inference`:
`iterations = total // B; iterations += 1 if total % B > 0 else 0;
iterations = max(1, iterations)`. -/
def iterationsFor (total batchSize : Nat) : Nat :=
  max 1 (total / batchSize + if total % batchSize > 0 then 1 else 0)

/-- The per-iteration call descriptors of the loop in
`SklearnContainer._run_batch_inference`: for each `i` the row range
`[start, end) = [i*B, min(i*B+B, total))` together with the value the loop
stores in `self._last_iteration` (namely `i == iterations - 1`) before
invoking the scoring function. -/
def batchCalls (total batchSize : Nat) : List (Nat × Nat × Bool) :=
  (List.range (iterationsFor total batchSize)).map
    (fun i => (i * batchSize, min (i * batchSize + batchSize) total,
               decide (i = iterationsFor total batchSize - 1)))

/-- Model of `SklearnContainer._run_batch_inference`.  The scoring function receives the
container's `_last_iteration` flag as its first argument (the Python code
communicates it through a mutable field set just before each call; a fresh
container starts with the flag `False`, which is what the early-return path
sees). -/
def runBatchInference {α β : Type} (f : Bool → List (Matrix α) → NDArray β)
    (inputs : List (Matrix α)) (batchSize : Nat) (reshape : Bool) : NDArray β :=
  let total := rowCount inputs
  if total = batchSize then f false inputs
  else
    let preds := (batchCalls total batchSize).flatMap
      (fun c => (f c.2.2 (sliceAll inputs c.1 c.2.1)).ravel)
    if reshape then (ndOfList preds).reshape2 total else ndOfList preds

/-- Model of `SklearnContainer._run` (after the optional DataFrame-to-column-arrays
normalization, which is upstream of the batching decision): score the full
dataset at once when no batch size is configured, otherwise run batched
inference. -/
def run {α β : Type} (f : Bool → List (Matrix α) → NDArray β)
    (inputs : List (Matrix α)) (batchSize : Option Nat) (reshape : Bool) : NDArray β :=
  match batchSize with
  | none => f false inputs
  | some b => runBatchInference f inputs b reshape

lemma iterationsFor_eq_ceil (N B : Nat) (hB : 0 < B) :
    iterationsFor N B = max 1 ((N + B - 1) / B) := by
  unfold iterationsFor
  congr 1
  rw [show N + B - 1 = N + (B - 1) by omega, Nat.add_div hB]
  have h1 : (B - 1) / B = 0 := Nat.div_eq_of_lt (by omega)
  have h2 : (B - 1) % B = B - 1 := Nat.mod_eq_of_lt (by omega)
  rw [h1, h2]
  have hm : N % B < B := Nat.mod_lt _ hB
  split <;> split <;> omega

lemma batchCalls_length (N B : Nat) :
    (batchCalls N B).length = iterationsFor N B := by
  simp [batchCalls]

/-- C2: with `N > 0`, `B > 0` and `N ≠ B`, the batched loop performs exactly
`max(1, ceil(N/B))` scoring calls, the `i`-th on the contiguous row range
`[i*B, min((i+1)*B, N))`, with the last-iteration flag true exactly on the
final call. -/
theorem batch_call_schedule (N B : Nat) (hB : 0 < B) (hN : 0 < N) (hNB : N ≠ B) :
    (batchCalls N B).length = max 1 ((N + B - 1) / B) ∧
    ∀ i, i < (batchCalls N B).length →
      (batchCalls N B).getD i (0, 0, false) =
        (i * B, min ((i + 1) * B) N, decide (i = (batchCalls N B).length - 1)) := by
  constructor
  · rw [batchCalls_length, iterationsFor_eq_ceil N B hB]
  · intro i hi
    rw [batchCalls_length] at hi
    have hlt : i < (List.range (iterationsFor N B)).length := by
      simpa using hi
    rw [batchCalls, List.getD_eq_getElem _ _ (by simpa using hi)]
    simp [batchCalls_length, Nat.succ_mul]

/-- Witness for C2 at the spec scenario: 100 rows, batch size 30 give four
partitions of sizes 30, 30, 30, 10 with the flag true only on the fourth. -/
theorem batch_call_schedule_witness :
    (0 < 30 ∧ 0 < 100 ∧ 100 ≠ 30) ∧
    (batchCalls 100 30).length = max 1 ((100 + 30 - 1) / 30) ∧
    (batchCalls 100 30).getD 3 (0, 0, false) = (90, 100, true) := by
  refine ⟨by decide, (batch_call_schedule 100 30 (by decide) (by decide) (by decide)).1, ?_⟩
  have h := (batch_call_schedule 100 30 (by decide) (by decide) (by decide)).2 3 (by decide)
  exact h.trans (by decide)

lemma iterationsFor_of_le (n B : Nat) (hB : 0 < B) (hn : n ≤ B) :
    iterationsFor n B = 1 := by
  unfold iterationsFor
  rcases Nat.lt_or_ge n B with h | h
  · have h0 : n / B = 0 := Nat.div_eq_of_lt h
    have h1 : n % B = n := Nat.mod_eq_of_lt h
    rw [h0, h1]
    split <;> omega
  · have hnB : n = B := le_antisymm hn h
    subst hnB
    rw [Nat.div_self hB, Nat.mod_self]
    simp

lemma iterationsFor_rec (n B : Nat) (hB : 0 < B) (h : B < n) :
    iterationsFor n B = iterationsFor (n - B) B + 1 := by
  obtain ⟨m, rfl⟩ : ∃ m, n = m + B := ⟨n - B, by omega⟩
  unfold iterationsFor
  rw [Nat.add_sub_cancel, Nat.add_div_right _ hB, Nat.add_mod_right]
  have hm : 0 < m := by omega
  by_cases hmb : m % B > 0
  · rw [if_pos hmb]
    generalize m / B = q
    omega
  · have h2 : m % B = 0 := by omega
    have hq : 0 < m / B :=
      Nat.div_pos (Nat.le_of_dvd hm (Nat.dvd_of_mod_eq_zero h2)) hB
    rw [if_neg hmb]
    revert hq
    generalize m / B = q
    intro hq
    omega

/-- Chunk-concatenation lemma for the loop of `_run_batch_inference`: for any
segment-valued function `g` that splits over concatenation of adjacent row
ranges, the loop's per-partition results concatenate to the whole range. -/
lemma flat_batch_eq {γ : Type} (g : Nat → Nat → List γ) (B : Nat) (hB : 0 < B)
    (hg : ∀ s k e : Nat, s ≤ k → k ≤ e → g s e = g s k ++ g k e) :
    ∀ n s : Nat, (List.range (iterationsFor n B)).flatMap
        (fun i => g (s + i * B) (s + min (i * B + B) n)) = g s (s + n) := by
  intro n
  induction n using Nat.strong_induction_on with
  | _ n ih =>
    intro s
    by_cases hn : n ≤ B
    · rw [iterationsFor_of_le n B hB hn,
        show List.range 1 = [0] from rfl]
      simp only [List.flatMap_cons, List.flatMap_nil, List.append_nil]
      have e1 : g (s + 0 * B) (s + min (0 * B + B) n) = g s (s + n) := by
        congr 1 <;> omega
      exact e1
    · push_neg at hn
      have hlt : n - B < n := by omega
      rw [iterationsFor_rec n B hB hn, List.range_succ_eq_map, List.flatMap_cons,
        List.flatMap_map]
      have hcongr : (fun i => g (s + Nat.succ i * B) (s + min (Nat.succ i * B + B) n))
          = fun i => g ((s + B) + i * B) ((s + B) + min (i * B + B) (n - B)) := by
        funext i
        have e1 : s + Nat.succ i * B = (s + B) + i * B := by
          rw [Nat.succ_mul]; omega
        have e2 : s + min (Nat.succ i * B + B) n = (s + B) + min (i * B + B) (n - B) := by
          rw [Nat.succ_mul]; omega
        rw [e1, e2]
      rw [hcongr, ih (n - B) hlt (s + B)]
      have e3 : g (s + 0 * B) (s + min (0 * B + B) n) = g s (s + B) := by
        congr 1 <;> omega
      have e4 : s + B + (n - B) = s + n := by omega
      rw [e3, e4]
      exact (hg s (s + B) (s + n) (by omega) (by omega)).symm

lemma sliceRows_split {α : Type} (m : Matrix α) (s k e : Nat)
    (h1 : s ≤ k) (h2 : k ≤ e) :
    sliceRows m s e = sliceRows m s k ++ sliceRows m k e := by
  unfold sliceRows
  rw [show e - s = (k - s) + (e - k) by omega, List.take_add, List.drop_drop,
    show s + (k - s) = k by omega]

lemma sliceAll_split {α : Type} (inputs : List (Matrix α)) (s k e : Nat)
    (h1 : s ≤ k) (h2 : k ≤ e) :
    sliceAll inputs s e
      = List.zipWith (fun a b => a ++ b) (sliceAll inputs s k) (sliceAll inputs k e) := by
  unfold sliceAll
  induction inputs with
  | nil => rfl
  | cons m ms ih =>
    simp only [List.map_cons, List.zipWith_cons_cons]
    rw [← sliceRows_split m s k e h1 h2]
    exact congrArg _ ih

lemma sliceAll_zero_full {α : Type} (inputs : List (Matrix α)) (N : Nat)
    (hrows : ∀ m ∈ inputs, m.length = N) : sliceAll inputs 0 N = inputs := by
  unfold sliceAll
  have h : ∀ m ∈ inputs, sliceRows m 0 N = m := by
    intro m hm
    unfold sliceRows
    rw [List.drop_zero, Nat.sub_zero, List.take_of_length_le (hrows m hm).le]
  calc inputs.map (fun m => sliceRows m 0 N) = inputs.map id := List.map_congr_left h
  _ = inputs := List.map_id inputs

/-- Amended C1: for any scoring function that ignores the last-iteration flag
and distributes over row-wise concatenation of its input arrays, the batched
execution path preserves the flattened (raveled) sequence of output values:
the concatenated per-partition outputs, read flat, equal the single unbatched
call's output read flat, under either reshape setting.  (The exact output
shape is not preserved in general; see the counterexample.) -/
theorem batching_preserves_flat_values {α β : Type}
    (g : List (Matrix α) → NDArray β) (inputs : List (Matrix α)) (B N : Nat) (r : Bool)
    (hB : 0 < B) (hrows : ∀ m ∈ inputs, m.length = N) (hN : rowCount inputs = N)
    (hsplit : ∀ x y : List (Matrix α), x.length = y.length →
      (g (List.zipWith (fun a b => a ++ b) x y)).ravel = (g x).ravel ++ (g y).ravel) :
    (runBatchInference (fun _ x => g x) inputs B r).ravel = (g inputs).ravel := by
  unfold runBatchInference
  simp only [hN]
  by_cases hNB : N = B
  · rw [if_pos hNB]
  · rw [if_neg hNB]
    have hravel : ∀ (l : List β),
        (if r then (ndOfList l).reshape2 N else ndOfList l).ravel = l := by
      intro l; cases r <;> rfl
    rw [hravel, batchCalls, List.flatMap_map]
    have hG : ∀ s k e : Nat, s ≤ k → k ≤ e →
        (g (sliceAll inputs s e)).ravel
          = (g (sliceAll inputs s k)).ravel ++ (g (sliceAll inputs k e)).ravel := by
      intro s k e h1 h2
      rw [sliceAll_split inputs s k e h1 h2]
      exact hsplit _ _ (by simp [sliceAll])
    have h := flat_batch_eq (fun s e => (g (sliceAll inputs s e)).ravel) B hB hG N 0
    simp only [Nat.zero_add] at h
    calc (List.range (iterationsFor N B)).flatMap
          ((fun c : Nat × Nat × Bool => (g (sliceAll inputs c.1 c.2.1)).ravel) ∘
            fun i => (i * B, min (i * B + B) N, decide (i = iterationsFor N B - 1)))
        = (List.range (iterationsFor N B)).flatMap
            (fun i => (g (sliceAll inputs (i * B) (min (i * B + B) N))).ravel) := rfl
    _ = (g (sliceAll inputs 0 N)).ravel := h
    _ = (g inputs).ravel := by rw [sliceAll_zero_full inputs N hrows]

/-- A concrete row-wise scoring function used in witnesses: flatten the first
input array into a 1-D output, one value per input cell. -/
def flatHead {α : Type} : List (Matrix α) → NDArray α :=
  fun ms => ndOfList ((ms.headD []).flatMap id)

lemma flatHead_split {α : Type} (x y : List (Matrix α)) (h : x.length = y.length) :
    (flatHead (List.zipWith (fun a b => a ++ b) x y)).ravel
      = (flatHead x).ravel ++ (flatHead y).ravel := by
  cases x with
  | nil =>
    cases y with
    | nil => rfl
    | cons b bs => simp at h
  | cons a as =>
    cases y with
    | nil => simp at h
    | cons b bs => simp [flatHead, ndOfList, NDArray.ravel]

/-- Witness for the amended C1 at a concrete input: three rows, batch size two. -/
theorem batching_preserves_flat_values_witness :
    (0 < 2 ∧ rowCount [[[(1 : Int)], [2], [3]]] = 3) ∧
    (runBatchInference (fun _ x => flatHead x) [[[(1 : Int)], [2], [3]]] 2 false).ravel
      = (flatHead [[[(1 : Int)], [2], [3]]]).ravel := by
  refine ⟨by decide, ?_⟩
  exact batching_preserves_flat_values flatHead [[[(1 : Int)], [2], [3]]] 2 3 false
    (by decide) (by decide) rfl flatHead_split

/-- A concrete row-wise scoring function returning the first input array
itself, as a 2-D output. -/
def matHead : Bool → List (Matrix Int) → NDArray Int :=
  fun _ ms => ⟨[(ms.headD []).length, ((ms.headD []).headD []).length],
               (ms.headD []).flatMap id⟩

/-- Counterexample to C1 as stated: for the row-wise scoring function that
returns its 2-D input unchanged, with two rows and batch size one, the batched
result carries the same flattened values as the unbatched call but is not equal
to it as an array at `reshape=false` (the batched path ravels to 1-D), and with
a 1-D-valued scoring function the `reshape=true` result differs as well (it is
reshaped to a column). -/
theorem batching_shape_counterexample :
    (runBatchInference matHead [[[(1 : Int)], [2]]] 1 false).ravel
        = (matHead false [[[(1 : Int)], [2]]]).ravel ∧
    runBatchInference matHead [[[(1 : Int)], [2]]] 1 false
        ≠ matHead false [[[(1 : Int)], [2]]] ∧
    runBatchInference (fun _ x => flatHead x) [[[(1 : Int)], [2]]] 1 true
        ≠ flatHead [[[(1 : Int)], [2]]] := by
  refine ⟨?_, ?_, ?_⟩ <;> decide

/-- Single-shot paths of `SklearnContainer._run` /
`_run_batch_inference` (amended C3): with no configured batch size, or when the
total row count equals the configured batch size, the scoring function is
invoked once on the full input and its result is returned unchanged — no
reshape is applied even when `reshape=true`; in particular the
row-count-equals-batch-size case returns exactly what the unbatched path
returns. -/
theorem single_invocation_paths {α β : Type} (f : Bool → List (Matrix α) → NDArray β)
    (inputs : List (Matrix α)) (r : Bool) (B : Nat) (hB : rowCount inputs = B) :
    run f inputs none r = f false inputs ∧
    run f inputs (some B) r = f false inputs := by
  refine ⟨rfl, ?_⟩
  unfold run runBatchInference
  simp [hB]

/-- Witness for the amended C3 at a concrete two-row input with batch size 2. -/
theorem single_invocation_paths_witness :
    rowCount [[[(1 : Int)], [2]]] = 2 ∧
    run matHead [[[(1 : Int)], [2]]] none true = matHead false [[[(1 : Int)], [2]]] ∧
    run matHead [[[(1 : Int)], [2]]] (some 2) true = matHead false [[[(1 : Int)], [2]]] := by
  refine ⟨rfl, ?_, ?_⟩
  · exact (single_invocation_paths matHead [[[(1 : Int)], [2]]] true 2 rfl).1
  · exact (single_invocation_paths matHead [[[(1 : Int)], [2]]] true 2 rfl).2

/-- A constant 1-D scoring function. -/
def constVec : Bool → List (Matrix Int) → NDArray Int := fun _ _ => ndOfList [5, 7]

/-- Counterexample to C3 as stated: when the row count equals the configured
batch size and `reshape=true` is requested, the code returns the scoring
function result unchanged instead of reshaping it to `(N, -1)` as the claim
says. -/
theorem single_invocation_reshape_counterexample :
    run constVec [[[(1 : Int)], [2]]] (some 2) true = constVec false [[[(1 : Int)], [2]]] ∧
    run constVec [[[(1 : Int)], [2]]] (some 2) true
      ≠ (constVec false [[[(1 : Int)], [2]]]).reshape2 2 := by
  constructor <;> decide

/-- The extra-configuration entries consulted by the anomaly-detection
container (`constants.IFOREST_THRESHOLD` and `constants.OFFSET`); an absent
key raises `KeyError` on subscript.  Score values are kept generic in an
additive type, abstracting the numpy float arrays. -/
structure ExtraConfig (σ : Type) where
  iforest_threshold : Option σ
  offset : Option σ
deriving DecidableEq

inductive ConfigError where
  | missingKey (key : String)
deriving DecidableEq

/-- numpy elementwise scalar addition `scores + t`. -/
def addScalar {σ : Type} [Add σ] (a : NDArray σ) (t : σ) : NDArray σ :=
  ⟨a.shape, a.data.map (fun v => v + t)⟩

/-- Model of `SklearnContainerAnomalyDetection`: the abstract `_decision_function`
primitive together with the run configuration its public methods consult. -/
structure SklearnContainerAnomalyDetection (σ : Type) where
  decisionPrimitive : Bool → List (Matrix σ) → NDArray σ
  batch_size : Option Nat
  extra_config : ExtraConfig σ

/-- Model of `SklearnContainerAnomalyDetection.decision_function`: run the
`_decision_function` primitive through the batch engine (`reshape=False`),
then add the configured `IFOREST_THRESHOLD` to every score when that key is
present (backward compatibility for sklearn <= 0.21). -/
def SklearnContainerAnomalyDetection.decision_function {σ : Type} [Add σ]
    (c : SklearnContainerAnomalyDetection σ) (inputs : List (Matrix σ)) : NDArray σ :=
  let scores := run c.decisionPrimitive inputs c.batch_size false
  match c.extra_config.iforest_threshold with
  | some t => addScalar scores t
  | none => scores

/-- Model of `SklearnContainerAnomalyDetection.score_samples`:
`decision_function(inputs) + extra_config[OFFSET]`; subscripting the missing
key raises `KeyError`. -/
def SklearnContainerAnomalyDetection.score_samples {σ : Type} [Add σ]
    (c : SklearnContainerAnomalyDetection σ) (inputs : List (Matrix σ)) :
    Except ConfigError (NDArray σ) :=
  match c.extra_config.offset with
  | some o => Except.ok (addScalar (c.decision_function inputs) o)
  | none => Except.error (ConfigError.missingKey ("OFFSET"))

/-- C6: for every anomaly-detection container and input, when the offset key
is present `score_samples` returns `decision_function` of the input with the
offset added to every score, and when the key is absent `score_samples` fails
with a missing-key error. -/
theorem score_samples_offset_contract {σ : Type} [Add σ]
    (c : SklearnContainerAnomalyDetection σ) (x : List (Matrix σ)) :
    (∀ o, c.extra_config.offset = some o →
      c.score_samples x = Except.ok (addScalar (c.decision_function x) o)) ∧
    (c.extra_config.offset = none →
      c.score_samples x = Except.error (ConfigError.missingKey ("OFFSET"))) := by
  constructor
  · intro o ho
    unfold SklearnContainerAnomalyDetection.score_samples
    rw [ho]
  · intro ho
    unfold SklearnContainerAnomalyDetection.score_samples
    rw [ho]

/-- Concrete anomaly container used in witnesses: raw scores `[10, -20]`
(the spec scenario `[0.1, -0.2]` scaled by 100), threshold 5, offset 50. -/
def exampleAnomaly : SklearnContainerAnomalyDetection Int :=
  ⟨fun _ _ => ⟨[2], [10, -20]⟩, none, ⟨some 5, some 50⟩⟩

/-- Witness for C6: with offset 50 configured, `score_samples` equals
`decision_function` plus 50 per score. -/
theorem score_samples_offset_contract_witness :
    exampleAnomaly.extra_config.offset = some 50 ∧
    exampleAnomaly.score_samples [] = Except.ok ⟨[2], [65, 35]⟩ := by
  refine ⟨rfl, ?_⟩
  have h := (score_samples_offset_contract exampleAnomaly []).1 50 rfl
  exact h.trans (by decide)

/-- C7: `decision_function` returns the raw batch-engine scores unchanged when
no `IFOREST_THRESHOLD` key is configured, and returns each raw score shifted
by exactly the configured threshold when the key is present. -/
theorem decision_function_threshold_contract {σ : Type} [Add σ]
    (c : SklearnContainerAnomalyDetection σ) (x : List (Matrix σ)) :
    (c.extra_config.iforest_threshold = none →
      c.decision_function x = run c.decisionPrimitive x c.batch_size false) ∧
    (∀ t, c.extra_config.iforest_threshold = some t →
      c.decision_function x
        = addScalar (run c.decisionPrimitive x c.batch_size false) t) := by
  constructor
  · intro ht
    unfold SklearnContainerAnomalyDetection.decision_function
    rw [ht]
  · intro t ht
    unfold SklearnContainerAnomalyDetection.decision_function
    rw [ht]

/-- Witness for C7 at the spec scenario scaled by 100: raw scores `[10, -20]`
with threshold 5 give `[15, -15]`. -/
theorem decision_function_threshold_contract_witness :
    exampleAnomaly.extra_config.iforest_threshold = some 5 ∧
    exampleAnomaly.decision_function [] = ⟨[2], [15, -15]⟩ := by
  refine ⟨rfl, ?_⟩
  have h := (decision_function_threshold_contract exampleAnomaly []).2 5 rfl
  exact h.trans (by decide)

/-- An ONNX runtime inference session, abstracted to what the container
primitives consult: the cached declared output names, and the engine run call
on a list of requested output names. -/
structure ONNXSession (γ : Type) where
  output_names : List String
  runOutputs : List String → List γ

inductive OnnxAssert where
  | assertionError
deriving DecidableEq

/-- Model of `ONNXSklearnContainerTransformer._transform`: asserts exactly one declared
output name, then runs the session on the full output-name list. -/
def onnxTransformPrim {γ : Type} (s : ONNXSession γ) : Except OnnxAssert (List γ) :=
  if s.output_names.length = 1 then Except.ok (s.runOutputs s.output_names)
  else Except.error OnnxAssert.assertionError

/-- Model of `ONNXSklearnContainerRegression._predict` with its three branches:
regression asserts one output name; anomaly detection and classification
assert two and run on `[output_names[0]]`. -/
def onnxPredictPrim {γ : Type} (is_regression is_anomaly_detection : Bool)
    (s : ONNXSession γ) : Except OnnxAssert (List γ) :=
  if is_regression then
    if s.output_names.length = 1 then Except.ok (s.runOutputs s.output_names)
    else Except.error OnnxAssert.assertionError
  else if is_anomaly_detection then
    if s.output_names.length = 2 then Except.ok (s.runOutputs (s.output_names.take 1))
    else Except.error OnnxAssert.assertionError
  else
    if s.output_names.length = 2 then Except.ok (s.runOutputs (s.output_names.take 1))
    else Except.error OnnxAssert.assertionError

/-- Model of `ONNXSklearnContainerClassification._predict_proba`: asserts two declared
output names, then runs on `[output_names[1]]`. -/
def onnxPredictProbaPrim {γ : Type} (s : ONNXSession γ) : Except OnnxAssert (List γ) :=
  if s.output_names.length = 2 then
    Except.ok (s.runOutputs ((s.output_names.drop 1).take 1))
  else Except.error OnnxAssert.assertionError

/-- Model of `ONNXSklearnContainerAnomalyDetection._decision_function`: asserts two
declared output names, then runs on `[output_names[1]]`. -/
def onnxDecisionFunctionPrim {γ : Type} (s : ONNXSession γ) : Except OnnxAssert (List γ) :=
  if s.output_names.length = 2 then
    Except.ok (s.runOutputs ((s.output_names.drop 1).take 1))
  else Except.error OnnxAssert.assertionError

lemma except_ite_ok_iff {ε γ : Type} (P : Prop) [Decidable P] (x : γ) (err : ε) :
    (∃ v, (if P then Except.ok x else Except.error err) = Except.ok v) ↔ P := by
  split <;> simp_all

lemma except_ite_error_iff {ε γ : Type} (P : Prop) [Decidable P] (x : γ) (err : ε) :
    ((if P then Except.ok x else Except.error err) = Except.error err) ↔ ¬ P := by
  split <;> simp_all

/-- C8: the interchange-format (ONNX) transform primitive succeeds exactly
when the session declares one output name, and the predict /
predict_proba / decision_function primitives of classifier and anomaly
containers succeed exactly when it declares two; any other count is an
assertion failure, and under the matching count the assertion branch is
unreachable (the result is a successful run). -/
theorem onnx_output_count_contract {γ : Type} (s : ONNXSession γ) :
    ((∃ v, onnxTransformPrim s = Except.ok v) ↔ s.output_names.length = 1) ∧
    (onnxTransformPrim s = Except.error OnnxAssert.assertionError
        ↔ ¬ s.output_names.length = 1) ∧
    ((∃ v, onnxPredictPrim false false s = Except.ok v) ↔ s.output_names.length = 2) ∧
    (onnxPredictPrim false false s = Except.error OnnxAssert.assertionError
        ↔ ¬ s.output_names.length = 2) ∧
    ((∃ v, onnxPredictPrim false true s = Except.ok v) ↔ s.output_names.length = 2) ∧
    (onnxPredictPrim false true s = Except.error OnnxAssert.assertionError
        ↔ ¬ s.output_names.length = 2) ∧
    ((∃ v, onnxPredictProbaPrim s = Except.ok v) ↔ s.output_names.length = 2) ∧
    (onnxPredictProbaPrim s = Except.error OnnxAssert.assertionError
        ↔ ¬ s.output_names.length = 2) ∧
    ((∃ v, onnxDecisionFunctionPrim s = Except.ok v) ↔ s.output_names.length = 2) ∧
    (onnxDecisionFunctionPrim s = Except.error OnnxAssert.assertionError
        ↔ ¬ s.output_names.length = 2) := by
  unfold onnxTransformPrim onnxPredictPrim onnxPredictProbaPrim onnxDecisionFunctionPrim
  refine ⟨?_, ?_, ?_, ?_, ?_, ?_, ?_, ?_, ?_, ?_⟩ <;>
  · try simp only [Bool.false_eq_true, if_false]
    first
    | exact except_ite_ok_iff _ _ _
    | exact except_ite_error_iff _ _ _

inductive KNConvError where
  | missingBatchSize
  | nonIntegerLabels
  | notImplementedError (msg : String)
deriving DecidableEq

/-- The KNeighbors operator attributes inspected by
`_convert_kneighbors_model`.  Train data, labels and `n_neighbors` do not
affect the parameter checks and are elided; `classesAreInt` abstracts the
`all(type(x) in [int, np.int32, np.int64] for x in classes)` test. -/
structure KNeighborsOperator where
  metric : String
  weights : String
  classesAreInt : Bool

/-- The `NotImplementedError` message raised for an unsupported metric,
exactly as the source expression evaluates: the string concatenation binds
tighter than the conditional expression, so for a regressor the whole message
is the bare alternative branch. -/
def kneighborsMetricMsg (is_classifier : Bool) : String :=
  if is_classifier then
    ("Hummingbird currently supports only the metric type \x27minkowski\x27 and \x27euclidean\x27 for KNeighborsClassifier")
  else ("Regressor")

/-- The `NotImplementedError` message raised for an unsupported weights value,
with the same precedence behaviour as the metric message. -/
def kneighborsWeightsMsg (is_classifier : Bool) : String :=
  if is_classifier then
    ("Hummingbird currently supports only the weights type \x27uniform\x27 and \x27distance\x27 for KNeighborsClassifier")
  else ("Regressor")

/-- Model of `_convert_kneighbors_model`: the validation sequence (batch-size presence,
integer class labels for classifiers, supported metric, supported weights).
On success the conversion returns the Minkowski exponent `p` it passes to the
model (`metric_params["p"]` when the metric is minkowski and the parameter is
supplied, else 2); construction of the `KNeighborsModel` itself is elided. -/
def convertKneighborsModel (op : KNeighborsOperator) (hasBatchSize : Bool)
    (is_classifier : Bool) (metricP : Option Int) : Except KNConvError Int :=
  if ¬ hasBatchSize then Except.error KNConvError.missingBatchSize
  else if is_classifier ∧ ¬ op.classesAreInt then
    Except.error KNConvError.nonIntegerLabels
  else if ¬ (op.metric = ("minkowski") ∨ op.metric = ("euclidean")) then
    Except.error (KNConvError.notImplementedError (kneighborsMetricMsg is_classifier))
  else if ¬ (op.weights = ("uniform") ∨ op.weights = ("distance")) then
    Except.error (KNConvError.notImplementedError (kneighborsWeightsMsg is_classifier))
  else Except.ok (if op.metric = ("minkowski") then metricP.getD 2 else 2)

/-- Amended C9: with a batch size configured (and integer class labels when
converting a classifier), an unsupported metric fails conversion with a
not-implemented error, a supported metric with unsupported weights fails with
a not-implemented error, and supported metric and weights pass the checks —
but the error messages are fixed strings that do not name the offending
value. -/
theorem kneighbors_param_validation (op : KNeighborsOperator) (is_classifier : Bool)
    (metricP : Option Int)
    (hlabels : is_classifier = true → op.classesAreInt = true) :
    (¬ (op.metric = ("minkowski") ∨ op.metric = ("euclidean")) →
      convertKneighborsModel op true is_classifier metricP
        = Except.error (KNConvError.notImplementedError (kneighborsMetricMsg is_classifier))) ∧
    ((op.metric = ("minkowski") ∨ op.metric = ("euclidean")) →
      ¬ (op.weights = ("uniform") ∨ op.weights = ("distance")) →
      convertKneighborsModel op true is_classifier metricP
        = Except.error (KNConvError.notImplementedError (kneighborsWeightsMsg is_classifier))) ∧
    ((op.metric = ("minkowski") ∨ op.metric = ("euclidean")) →
      (op.weights = ("uniform") ∨ op.weights = ("distance")) →
      ∃ p, convertKneighborsModel op true is_classifier metricP = Except.ok p) := by
  have hcls : ¬ (is_classifier ∧ ¬ op.classesAreInt) := by
    cases is_classifier with
    | false => simp
    | true => simp [hlabels rfl]
  refine ⟨?_, ?_, ?_⟩
  · intro hm
    unfold convertKneighborsModel
    rw [if_neg (by simp), if_neg hcls, if_pos hm]
  · intro hm hw
    unfold convertKneighborsModel
    rw [if_neg (by simp), if_neg hcls, if_neg (not_not_intro hm), if_pos hw]
  · intro hm hw
    refine ⟨if op.metric = ("minkowski") then metricP.getD 2 else 2, ?_⟩
    unfold convertKneighborsModel
    rw [if_neg (by simp), if_neg hcls, if_neg (not_not_intro hm),
      if_neg (not_not_intro hw)]

/-- Witness for the amended C9: a classifier with metric "manhattan" fails
with the fixed not-implemented message. -/
theorem kneighbors_param_validation_witness :
    convertKneighborsModel ⟨("manhattan"), ("uniform"), true⟩ true true none
      = Except.error (KNConvError.notImplementedError (kneighborsMetricMsg true)) := by
  exact (kneighbors_param_validation ⟨("manhattan"), ("uniform"), true⟩ true none
    (fun _ => rfl)).1 (by decide)

/-- Counterexample to C9 as stated: the not-implemented error does not name
the offending value — two different unsupported metrics yield the identical
message, which for a regressor is (because of the precedence of the
conditional expression in the source) the bare string "Regressor". -/
theorem kneighbors_message_counterexample :
    convertKneighborsModel ⟨("manhattan"), ("uniform"), true⟩ true false none
      = Except.error (KNConvError.notImplementedError ("Regressor")) ∧
    convertKneighborsModel ⟨("chebyshev"), ("uniform"), true⟩ true false none
      = Except.error (KNConvError.notImplementedError ("Regressor")) := by
  constructor <;> decide

/-- Model of `torch.argmax` over a 1-D list of mask values: the index of the first
occurrence of the maximum (PyTorch returns the first maximal index). -/
def argmaxFirst : List Nat → Nat
  | [] => 0
  | x :: xs => if xs.getD (argmaxFirst xs) 0 > x then argmaxFirst xs + 1 else 0

/-- Model of `NumericLabelEncoder.forward`: view the query as a column, compare each
query value for integer equality against the stored `check_tensor`
(`torch.eq`), convert the mask to integers, and take the argmax along the
class dimension. -/
def NumericLabelEncoder.forward (check_tensor : List Int) (x : List Int) : List Nat :=
  x.map (fun v => argmaxFirst (check_tensor.map (fun c => if v = c then 1 else 0)))

lemma argmaxFirst_is_max (l : List Nat) :
    ∀ i, i < l.length → l.getD i 0 ≤ l.getD (argmaxFirst l) 0 := by
  induction l with
  | nil => intro i hi; simp at hi
  | cons x xs ih =>
    intro i hi
    unfold argmaxFirst
    by_cases h : xs.getD (argmaxFirst xs) 0 > x
    · rw [if_pos h]
      cases i with
      | zero => simpa using le_of_lt h
      | succ j =>
        simp only [List.getD_cons_succ]
        exact ih j (by simpa using hi)
    · rw [if_neg h]
      push_neg at h
      cases i with
      | zero => simp
      | succ j =>
        have hj : j < xs.length := by simpa using hi
        calc (x :: xs).getD (j + 1) 0 = xs.getD j 0 := by simp
        _ ≤ xs.getD (argmaxFirst xs) 0 := ih j hj
        _ ≤ x := h
        _ = (x :: xs).getD 0 0 := by simp

lemma mask_getD_le_one (cs : List Int) (v : Int) (i : Nat) :
    (cs.map (fun c => if v = c then (1 : Nat) else 0)).getD i 0 ≤ 1 := by
  induction cs generalizing i with
  | nil => simp
  | cons c cs ih =>
    cases i with
    | zero =>
      simp only [List.map_cons, List.getD_cons_zero]
      split <;> omega
    | succ j => simpa using ih j

lemma mask_getD_indexOf (cs : List Int) (v : Int) (hv : v ∈ cs) :
    (cs.map (fun c => if v = c then (1 : Nat) else 0)).getD (cs.indexOf v) 0 = 1 := by
  have hlt : cs.indexOf v < cs.length := List.indexOf_lt_length.mpr hv
  rw [List.getD_eq_getElem _ _ (by simpa using hlt), List.getElem_map,
    List.getElem_indexOf hlt]
  simp

lemma argmax_mask_indexOf (cs : List Int) (v : Int) (hv : v ∈ cs) :
    argmaxFirst (cs.map (fun c => if v = c then 1 else 0)) = cs.indexOf v := by
  induction cs with
  | nil => simp at hv
  | cons c cs ih =>
    by_cases hvc : v = c
    · subst hvc
      rw [List.indexOf_cons_self]
      simp only [List.map_cons, if_pos rfl]
      unfold argmaxFirst
      rw [if_neg]
      exact not_lt.mpr (mask_getD_le_one cs v _)
    · have hv' : v ∈ cs := by
        rcases List.mem_cons.mp hv with h | h
        · exact absurd h hvc
        · exact h
      rw [List.indexOf_cons_ne _ (fun h => hvc h.symm)]
      simp only [List.map_cons, if_neg hvc]
      unfold argmaxFirst
      have hcond : (cs.map (fun c => if v = c then (1 : Nat) else 0)).getD
          (argmaxFirst (cs.map (fun c => if v = c then 1 else 0))) 0 > 0 := by
        rw [ih hv', mask_getD_indexOf cs v hv']
        omega
      rw [if_pos hcond, ih hv']

/-- C5: the numeric label encoder compares each query value by direct integer
equality against the stored class tensor and returns, per query row, the first
(lowest) matching column index (argmax over the 0/1 equality mask with ties
resolved by the lowest index). -/
theorem numeric_label_encoder_first_match (check_tensor : List Int) (x : List Int)
    (h : ∀ v ∈ x, v ∈ check_tensor) :
    NumericLabelEncoder.forward check_tensor x
      = x.map (fun v => check_tensor.indexOf v) := by
  unfold NumericLabelEncoder.forward
  exact List.map_congr_left (fun v hv => argmax_mask_indexOf check_tensor v (h v hv))

/-- Witness for C5 at the spec scenario: classes `[0,1,2]`, queries
`[1,0,2]` give indices `[1,0,2]`. -/
theorem numeric_label_encoder_first_match_witness :
    (∀ v ∈ [(1 : Int), 0, 2], v ∈ [(0 : Int), 1, 2]) ∧
    NumericLabelEncoder.forward [(0 : Int), 1, 2] [1, 0, 2] = [1, 0, 2] := by
  refine ⟨by decide, ?_⟩
  have h := numeric_label_encoder_first_match [(0 : Int), 1, 2] [1, 0, 2] (by decide)
  exact h.trans (by decide)

lemma mask_getD_zero (cs : List Int) (v : Int) (hv : v ∉ cs) (i : Nat) :
    (cs.map (fun c => if v = c then (1 : Nat) else 0)).getD i 0 = 0 := by
  induction cs generalizing i with
  | nil => simp
  | cons c cs ih =>
    have hvc : v ≠ c := fun h => hv (by rw [h]; exact List.mem_cons_self c cs)
    have hv' : v ∉ cs := fun h => hv (List.mem_cons_of_mem c h)
    cases i with
    | zero => simp [hvc]
    | succ j => simpa using ih hv' j

lemma argmaxFirst_oov_mask (cs : List Int) (v : Int) (hv : v ∉ cs) :
    argmaxFirst (cs.map (fun c => if v = c then 1 else 0)) = 0 := by
  cases cs with
  | nil => rfl
  | cons c cs =>
    have hvc : v ≠ c := fun h => hv (by rw [h]; exact List.mem_cons_self c cs)
    have hv' : v ∉ cs := fun h => hv (List.mem_cons_of_mem c h)
    simp only [List.map_cons, if_neg hvc]
    unfold argmaxFirst
    rw [if_neg]
    rw [mask_getD_zero cs v hv']
    omega

/-- C10: a numeric query value matching no stored class makes `forward` return
index 0 for that row, without any error — indistinguishable from a query that
matches the first stored class. -/
theorem numeric_label_encoder_oov (check_tensor : List Int) (v : Int)
    (h : v ∉ check_tensor) :
    NumericLabelEncoder.forward check_tensor [v] = [0] ∧
    (∀ c0 rest, check_tensor = c0 :: rest →
      NumericLabelEncoder.forward check_tensor [c0]
        = NumericLabelEncoder.forward check_tensor [v]) := by
  have h1 : NumericLabelEncoder.forward check_tensor [v] = [0] := by
    unfold NumericLabelEncoder.forward
    simp only [List.map_cons, List.map_nil]
    rw [argmaxFirst_oov_mask check_tensor v h]
  refine ⟨h1, ?_⟩
  intro c0 rest hct
  subst hct
  have h2 : NumericLabelEncoder.forward (c0 :: rest) [c0]
      = [List.indexOf c0 (c0 :: rest)] := by
    unfold NumericLabelEncoder.forward
    rw [List.map_cons, List.map_nil,
      argmax_mask_indexOf (c0 :: rest) c0 (List.mem_cons_self c0 rest)]
  rw [h1, h2, List.indexOf_cons_self]

/-- Witness for C10: classes `[0,1,2]` with out-of-vocabulary query 7 silently
give index 0, the same output as querying the first class 0. -/
theorem numeric_label_encoder_oov_witness :
    ((7 : Int) ∉ [(0 : Int), 1, 2]) ∧
    NumericLabelEncoder.forward [(0 : Int), 1, 2] [7] = [0] ∧
    NumericLabelEncoder.forward [(0 : Int), 1, 2] [0]
      = NumericLabelEncoder.forward [(0 : Int), 1, 2] [7] := by
  refine ⟨by decide, (numeric_label_encoder_oov [(0 : Int), 1, 2] 7 (by decide)).1, ?_⟩
  exact (numeric_label_encoder_oov [(0 : Int), 1, 2] 7 (by decide)).2 0 [1, 2] rfl

/-- The `while self.max_word_length % 4 != 0: self.max_word_length += 1` loop
of `StringLabelEncoder.__init__`: round the maximum label byte length up to
the next multiple of 4. -/
def roundUp4 (n : Nat) : Nat := if n % 4 = 0 then n else n + (4 - n % 4)

/-- Model of `max([len(cat) for cat in classes])`.  Labels are modelled as their ASCII
byte sequences (lists of byte values). -/
def maxLabelLen (classes : List (List Nat)) : Nat :=
  classes.foldr (fun c m => max c.length m) 0

/-- The padded byte width of the `|S` dtype used for the vocabulary tensor. -/
def maxWordBytes (classes : List (List Nat)) : Nat := roundUp4 (maxLabelLen classes)

/-- numpy `|S w` dtype conversion: zero-pad a byte string to width `w`. -/
def padLabel (c : List Nat) (w : Nat) : List Nat := c ++ List.replicate (w - c.length) 0

/-- numpy `.view(np.int32)`: reinterpret each group of four consecutive bytes
as one little-endian 32-bit word. -/
def pack4 : List Nat → List Nat
  | b0 :: b1 :: b2 :: b3 :: rest =>
    (b0 + 256 * b1 + 65536 * b2 + 16777216 * b3) :: pack4 rest
  | _ => []

/-- Lexicographic byte-string comparison: Python string comparison restricted
to the ASCII labels modelled here. -/
def lexLe : List Nat → List Nat → Bool
  | [], _ => true
  | _ :: _, [] => false
  | a :: as, b :: bs => if a < b then true else if b < a then false else lexLe as bs

/-- Model of `sorted(set(classes))` in `StringLabelEncoder.__init__`. -/
def sortedVocab (classes : List (List Nat)) : List (List Nat) :=
  List.insertionSort (fun a b => lexLe a b = true) classes.dedup

/-- Model of `self.condition_tensors` of `StringLabelEncoder.__init__` (without the
leading broadcast dimension): the sorted de-duplicated vocabulary, each entry
zero-padded to the fixed byte width and viewed as 32-bit words. -/
def condition_tensors (classes : List (List Nat)) : List (List Nat) :=
  (sortedVocab classes).map (fun c => pack4 (padLabel c (maxWordBytes classes)))

inductive EncoderError where
  | unseenLabels (x : List (List Nat)) (cond : List (List Nat))
deriving DecidableEq

/-- The match computation of `StringLabelEncoder.forward`:
`torch.prod(self.condition_tensors == x, dim=2).nonzero(as_tuple=True)[1]` —
for each query row (a width-`W` word vector), the indices of the vocabulary
rows all of whose words are equal, collected in row-major order. -/
def strMatches (cond : List (List Nat)) (x : List (List Nat)) : List Nat :=
  x.flatMap (fun q => (List.range cond.length).filter
    (fun j => decide (cond.getD j [] = q)))

/-- Model of `StringLabelEncoder.forward`: if the number of full-width matches differs
from the number of query rows, the assertion fails and a `ValueError` naming
the input and the vocabulary tensor is raised; otherwise the matching indices
are returned. -/
def StringLabelEncoder.forward (cond : List (List Nat)) (x : List (List Nat)) :
    Except EncoderError (List Nat) :=
  if (strMatches cond x).length = x.length then Except.ok (strMatches cond x)
  else Except.error (EncoderError.unseenLabels x cond)

/-- Byte validity of a modelled label: non-NUL single bytes.  (numpy `|S`
conversion truncates trailing NUL bytes, so faithfully modelled labels are
NUL-free.) -/
abbrev validLabel (c : List Nat) : Prop := ∀ b ∈ c, 0 < b ∧ b < 256

/-- The fixed-width word encoding the conversion pipeline applies to a query
value before it reaches `forward`. -/
def encodeLabel (classes : List (List Nat)) (q : List Nat) : List Nat :=
  pack4 (padLabel q (maxWordBytes classes))

lemma roundUp4_mod (n : Nat) : roundUp4 n % 4 = 0 := by
  unfold roundUp4
  split <;> omega

lemma le_roundUp4 (n : Nat) : n ≤ roundUp4 n := by
  unfold roundUp4
  split <;> omega

lemma mem_le_maxLabelLen (classes : List (List Nat)) (c : List Nat)
    (hc : c ∈ classes) : c.length ≤ maxLabelLen classes := by
  induction classes with
  | nil => simp at hc
  | cons d ds ih =>
    simp only [maxLabelLen, List.foldr_cons]
    rcases List.mem_cons.mp hc with h | h
    · subst h
      exact le_max_left _ _
    · exact le_trans (ih h) (le_max_right _ _)

lemma padLabel_length (c : List Nat) (w : Nat) (h : c.length ≤ w) :
    (padLabel c w).length = w := by
  unfold padLabel
  simp
  omega

lemma padLabel_lt256 (c : List Nat) (w : Nat) (hc : validLabel c) :
    ∀ b ∈ padLabel c w, b < 256 := by
  intro b hb
  unfold padLabel at hb
  rcases List.mem_append.mp hb with h | h
  · exact (hc b h).2
  · have := List.eq_of_mem_replicate h
    omega

lemma list_four_decomp (a : List Nat) (hmod : a.length % 4 = 0) (hne : a ≠ []) :
    ∃ b0 b1 b2 b3 rest, a = b0 :: b1 :: b2 :: b3 :: rest := by
  match a with
  | [] => exact absurd rfl hne
  | [x] => simp at hmod
  | [x, y] => simp at hmod
  | [x, y, z] => simp at hmod
  | b0 :: b1 :: b2 :: b3 :: rest => exact ⟨b0, b1, b2, b3, rest, rfl⟩

lemma pack4_inj (n : Nat) : ∀ a b : List Nat, a.length = n → b.length = n →
    n % 4 = 0 → (∀ x ∈ a, x < 256) → (∀ x ∈ b, x < 256) →
    pack4 a = pack4 b → a = b := by
  induction n using Nat.strong_induction_on with
  | _ n ih =>
    intro a b ha hb hmod hva hvb heq
    by_cases hn : n = 0
    · subst hn
      rw [List.eq_nil_of_length_eq_zero ha, List.eq_nil_of_length_eq_zero hb]
    · have hane : a ≠ [] := by
        intro h
        rw [h] at ha
        exact hn ha.symm
      have hbne : b ≠ [] := by
        intro h
        rw [h] at hb
        exact hn hb.symm
      obtain ⟨a0, a1, a2, a3, as, rfl⟩ := list_four_decomp a (by rw [ha]; exact hmod) hane
      obtain ⟨b0, b1, b2, b3, bs, rfl⟩ := list_four_decomp b (by rw [hb]; exact hmod) hbne
      simp only [pack4] at heq
      injection heq with hhead htail
      have hlen4 : as.length = n - 4 := by
        simp only [List.length_cons] at ha
        omega
      have hlenb4 : bs.length = n - 4 := by
        simp only [List.length_cons] at hb
        omega
      have hn4 : n - 4 < n := by omega
      have hmod4 : (n - 4) % 4 = 0 := by omega
      have has : as = bs := by
        refine ih (n - 4) hn4 as bs hlen4 hlenb4 hmod4 ?_ ?_ htail
        · intro x hx
          exact hva x (by simp [hx])
        · intro x hx
          exact hvb x (by simp [hx])
      have ha0 : a0 < 256 := hva a0 (by simp)
      have ha1 : a1 < 256 := hva a1 (by simp)
      have ha2 : a2 < 256 := hva a2 (by simp)
      have ha3 : a3 < 256 := hva a3 (by simp)
      have hb0 : b0 < 256 := hvb b0 (by simp)
      have hb1 : b1 < 256 := hvb b1 (by simp)
      have hb2 : b2 < 256 := hvb b2 (by simp)
      have hb3 : b3 < 256 := hvb b3 (by simp)
      have e0 : a0 = b0 := by omega
      have e1 : a1 = b1 := by omega
      have e2 : a2 = b2 := by omega
      have e3 : a3 = b3 := by omega
      rw [e0, e1, e2, e3, has]

lemma padLabel_inj (a : List Nat) : ∀ (b : List Nat) (w : Nat),
    validLabel a → validLabel b → a.length ≤ w → b.length ≤ w →
    padLabel a w = padLabel b w → a = b := by
  induction a with
  | nil =>
    intro b w hva hvb hla hlb h
    cases b with
    | nil => rfl
    | cons y ys =>
      unfold padLabel at h
      simp only [List.nil_append, List.length_nil, Nat.sub_zero] at h
      cases w with
      | zero => simp at hlb
      | succ w =>
        rw [List.replicate_succ] at h
        injection h with hy
        have := (hvb y (by simp)).1
        omega
  | cons x xs ih =>
    intro b w hva hvb hla hlb h
    cases b with
    | nil =>
      unfold padLabel at h
      simp only [List.nil_append, List.length_nil, Nat.sub_zero] at h
      cases w with
      | zero => simp at hla
      | succ w =>
        rw [List.replicate_succ] at h
        injection h with hx
        have := (hva x (by simp)).1
        omega
    | cons y ys =>
      unfold padLabel at h
      simp only [List.cons_append, List.length_cons] at h
      injection h with hxy htail
      have hxs : w - (xs.length + 1) = (w - 1) - xs.length := by omega
      have hys : w - (ys.length + 1) = (w - 1) - ys.length := by omega
      rw [hxs, hys] at htail
      have hrec : xs = ys := by
        refine ih ys (w - 1) ?_ ?_ ?_ ?_ htail
        · intro v hv
          exact hva v (by simp [hv])
        · intro v hv
          exact hvb v (by simp [hv])
        · simp only [List.length_cons] at hla
          omega
        · simp only [List.length_cons] at hlb
          omega
      rw [hxy, hrec]

lemma encode_inj (classes : List (List Nat)) (a b : List Nat)
    (hva : validLabel a) (hvb : validLabel b)
    (hla : a.length ≤ maxWordBytes classes) (hlb : b.length ≤ maxWordBytes classes)
    (h : encodeLabel classes a = encodeLabel classes b) : a = b := by
  have hmod : maxWordBytes classes % 4 = 0 := roundUp4_mod _
  have hpa := padLabel_length a (maxWordBytes classes) hla
  have hpb := padLabel_length b (maxWordBytes classes) hlb
  have hpad : padLabel a (maxWordBytes classes) = padLabel b (maxWordBytes classes) :=
    pack4_inj (maxWordBytes classes) _ _ hpa hpb hmod
      (padLabel_lt256 a _ hva) (padLabel_lt256 b _ hvb) h
  exact padLabel_inj a b (maxWordBytes classes) hva hvb hla hlb hpad

lemma sortedVocab_nodup (classes : List (List Nat)) : (sortedVocab classes).Nodup :=
  (List.perm_insertionSort _ classes.dedup).nodup_iff.mpr (List.nodup_dedup classes)

lemma mem_sortedVocab (classes : List (List Nat)) (q : List Nat) :
    q ∈ sortedVocab classes ↔ q ∈ classes := by
  unfold sortedVocab
  rw [List.Perm.mem_iff (List.perm_insertionSort _ classes.dedup), List.mem_dedup]

lemma getD_map_of_lt {α β : Type} (f : α → β) (l : List α) (j : Nat)
    (hj : j < l.length) (d : α) (e : β) :
    (l.map f).getD j e = f (l.getD j d) := by
  rw [List.getD_eq_getElem _ _ (by simpa using hj), List.getElem_map,
    List.getD_eq_getElem _ _ hj]

lemma filter_range_unique (n : Nat) (p : Nat → Bool) (j0 : Nat) (hj0 : j0 < n)
    (hp : ∀ j, j < n → (p j = true ↔ j = j0)) :
    (List.range n).filter p = [j0] := by
  induction n with
  | zero => omega
  | succ m ih =>
    rw [List.range_succ, List.filter_append]
    by_cases h : j0 = m
    · subst h
      have h1 : (List.range j0).filter p = [] := by
        rw [List.filter_eq_nil_iff]
        intro a ha hpa
        have := (hp a (by have := List.mem_range.mp ha; omega)).mp hpa
        have := List.mem_range.mp ha
        omega
      have h2 : p j0 = true := (hp j0 (by omega)).mpr rfl
      rw [h1]
      simp [h2]
    · have hj0m : j0 < m := by omega
      rw [ih hj0m (fun j hj => hp j (by omega))]
      have h2 : p m = false := by
        cases hpm : p m with
        | false => rfl
        | true => exact absurd ((hp m (by omega)).mp hpm).symm h
      simp [h2]

lemma filter_range_nomatch (n : Nat) (p : Nat → Bool)
    (hp : ∀ j, j < n → p j = false) :
    (List.range n).filter p = [] := by
  rw [List.filter_eq_nil_iff]
  intro a ha
  rw [hp a (List.mem_range.mp ha)]
  simp

lemma cond_getD_eq_iff (classes : List (List Nat)) (q : List Nat)
    (hval : ∀ c ∈ classes, validLabel c) (hq : validLabel q)
    (hqw : q.length ≤ maxWordBytes classes)
    (j : Nat) (hj : j < (sortedVocab classes).length) :
    ((condition_tensors classes).getD j [] = encodeLabel classes q
      ↔ (sortedVocab classes).getD j [] = q) := by
  have hVj : (condition_tensors classes).getD j []
      = encodeLabel classes ((sortedVocab classes).getD j []) := by
    unfold condition_tensors encodeLabel
    exact getD_map_of_lt _ (sortedVocab classes) j hj [] []
  have hVjmem : (sortedVocab classes).getD j [] ∈ sortedVocab classes := by
    rw [List.getD_eq_getElem _ _ hj]
    exact List.getElem_mem hj
  have hVjcls : (sortedVocab classes).getD j [] ∈ classes :=
    (mem_sortedVocab classes _).mp hVjmem
  constructor
  · intro heq
    rw [hVj] at heq
    exact encode_inj classes _ q (hval _ hVjcls) hq
      (le_trans (mem_le_maxLabelLen classes _ hVjcls) (le_roundUp4 _)) hqw heq
  · intro heq
    rw [hVj, heq]

lemma indexOf_lt_of_mem {α : Type} [BEq α] [LawfulBEq α] (l : List α) (a : α)
    (h : a ∈ l) : l.indexOf a < l.length := by
  induction l with
  | nil => simp at h
  | cons b bs ih =>
    rw [List.indexOf_cons]
    cases hba : b == a with
    | true => simp
    | false =>
      have hne : b ≠ a := fun hc => by simp [hc] at hba
      have hmem : a ∈ bs := by
        rcases List.mem_cons.mp h with hc | hc
        · exact absurd hc.symm hne
        · exact hc
      simpa using ih hmem

lemma getD_indexOf_of_mem {α : Type} [BEq α] [LawfulBEq α] (l : List α) (a d : α)
    (h : a ∈ l) : l.getD (l.indexOf a) d = a := by
  induction l with
  | nil => simp at h
  | cons b bs ih =>
    rw [List.indexOf_cons]
    cases hba : b == a with
    | true => simpa using eq_of_beq hba
    | false =>
      have hne : b ≠ a := fun hc => by simp [hc] at hba
      have hmem : a ∈ bs := by
        rcases List.mem_cons.mp h with hc | hc
        · exact absurd hc.symm hne
        · exact hc
      simpa using ih hmem

lemma indexOf_of_getD_nodup {α : Type} [BEq α] [LawfulBEq α] (l : List α)
    (hl : l.Nodup) (a d : α) (j : Nat) (hj : j < l.length)
    (heq : l.getD j d = a) : j = l.indexOf a := by
  induction l generalizing j with
  | nil => simp at hj
  | cons b bs ih =>
    rw [List.indexOf_cons]
    cases j with
    | zero =>
      have hba : b = a := by simpa using heq
      rw [hba]
      simp
    | succ i =>
      have hi : i < bs.length := by simpa using hj
      have heqi : bs.getD i d = a := by simpa using heq
      have hmem : a ∈ bs := by
        rw [← heqi, List.getD_eq_getElem _ _ hi]
        exact List.getElem_mem hi
      have hne : ¬ b == a := by
        intro hba
        exact (List.nodup_cons.mp hl).1 ((eq_of_beq hba) ▸ hmem)
      rw [Bool.cond_neg (by simpa using hne)]
      simpa using ih (List.nodup_cons.mp hl).2 i hi heqi

lemma vocab_getD_eq_iff_indexOf (classes : List (List Nat)) (q : List Nat)
    (hqV : q ∈ sortedVocab classes) (j : Nat) (hj : j < (sortedVocab classes).length) :
    ((sortedVocab classes).getD j [] = q ↔ j = (sortedVocab classes).indexOf q) := by
  constructor
  · intro heq
    exact indexOf_of_getD_nodup (sortedVocab classes) (sortedVocab_nodup classes)
      q [] j hj heq
  · intro heq
    subst heq
    exact getD_indexOf_of_mem (sortedVocab classes) q [] hqV

/-- C4: for the string label encoder built from any fitted vocabulary of
valid (NUL-free byte) labels, a single encoded query drawn from the
vocabulary maps under `forward` to the 0-based index of that value in the
sorted de-duplicated vocabulary, and a query value not in the vocabulary
makes `forward` raise the vocabulary-miss error naming the offending input
and the known vocabulary tensor. -/
theorem string_label_encoder_lookup (classes : List (List Nat)) (q : List Nat)
    (hval : ∀ c ∈ classes, validLabel c) (hq : validLabel q)
    (hqw : q.length ≤ maxWordBytes classes) :
    (q ∈ classes →
      StringLabelEncoder.forward (condition_tensors classes) [encodeLabel classes q]
        = Except.ok [(sortedVocab classes).indexOf q]) ∧
    (q ∉ classes →
      StringLabelEncoder.forward (condition_tensors classes) [encodeLabel classes q]
        = Except.error (EncoderError.unseenLabels [encodeLabel classes q]
            (condition_tensors classes))) := by
  have hcondlen : (condition_tensors classes).length = (sortedVocab classes).length := by
    unfold condition_tensors
    simp
  constructor
  · intro hqc
    have hqV : q ∈ sortedVocab classes := (mem_sortedVocab classes q).mpr hqc
    have hj0 : (sortedVocab classes).indexOf q < (sortedVocab classes).length :=
      indexOf_lt_of_mem (sortedVocab classes) q hqV
    have hfilter : strMatches (condition_tensors classes) [encodeLabel classes q]
        = [(sortedVocab classes).indexOf q] := by
      unfold strMatches
      simp only [List.flatMap_cons, List.flatMap_nil, List.append_nil]
      rw [hcondlen]
      apply filter_range_unique _ _ _ hj0
      intro j hj
      rw [decide_eq_true_eq, cond_getD_eq_iff classes q hval hq hqw j hj]
      exact vocab_getD_eq_iff_indexOf classes q hqV j hj
    unfold StringLabelEncoder.forward
    rw [hfilter]
    simp
  · intro hqc
    have hfilter : strMatches (condition_tensors classes) [encodeLabel classes q]
        = [] := by
      unfold strMatches
      simp only [List.flatMap_cons, List.flatMap_nil, List.append_nil]
      rw [hcondlen]
      apply filter_range_nomatch
      intro j hj
      rw [decide_eq_false_iff_not, cond_getD_eq_iff classes q hval hq hqw j hj]
      intro heq
      apply hqc
      apply (mem_sortedVocab classes q).mp
      rw [← heq]
      rw [List.getD_eq_getElem _ _ hj]
      exact List.getElem_mem hj
    unfold StringLabelEncoder.forward
    rw [hfilter]
    simp

/-- ASCII byte encoding of a label string (the modelled form of the Python
string labels). -/
def asciiBytes (s : String) : List Nat := s.data.map Char.toNat

/-- The spec scenario vocabulary, deliberately unsorted. -/
def exampleClasses : List (List Nat) :=
  [asciiBytes ("milan"), asciiBytes ("tokyo"), asciiBytes ("paris"),
   asciiBytes ("amsterdam")]

/-- Witness for C4 at the spec scenario: querying "paris" against the fitted
vocabulary amsterdam/milan/paris/tokyo yields index 2, and the
out-of-vocabulary query "london" raises the vocabulary-miss error. -/
theorem string_label_encoder_lookup_witness :
    (asciiBytes ("paris") ∈ exampleClasses ∧ validLabel (asciiBytes ("paris")) ∧
      (asciiBytes ("paris")).length ≤ maxWordBytes exampleClasses ∧
      asciiBytes ("london") ∉ exampleClasses) ∧
    StringLabelEncoder.forward (condition_tensors exampleClasses)
        [encodeLabel exampleClasses (asciiBytes ("paris"))] = Except.ok [2] ∧
    StringLabelEncoder.forward (condition_tensors exampleClasses)
        [encodeLabel exampleClasses (asciiBytes ("london"))]
      = Except.error (EncoderError.unseenLabels
          [encodeLabel exampleClasses (asciiBytes ("london"))]
          (condition_tensors exampleClasses)) := by
  refine ⟨by decide, ?_, ?_⟩
  · have h := (string_label_encoder_lookup exampleClasses (asciiBytes ("paris"))
      (by decide) (by decide) (by decide)).1 (by decide)
    exact h.trans (by decide)
  · exact (string_label_encoder_lookup exampleClasses (asciiBytes ("london"))
      (by decide) (by decide) (by decide)).2 (by decide)

end Hummingbird
